import Mathlib

set_option maxHeartbeats 1000000

/-
Shallow embedding of src/src/MessageHeaders/MessageHeaders.cpp.

Strings are modelled as `List Char` (the inputs of interest are ASCII byte
strings), `size_t` as `Nat` (subtraction is truncated; the source never
relies on wrap-around on reachable paths, except where noted in comments),
`std::string::npos` results as `Option Nat`, and the C++ `while` loops as
fuelled structural recursion, where the fuel passed by each wrapper
(`length + 1`) dominates the loop's strictly increasing offset.
-/

/-- `WSP` from MessageHeaders.cpp: the whitespace characters. -/
def WSP : List Char := [' ', '\t']

/-- `CRLF` from MessageHeaders.cpp: the required line terminator. -/
def CRLF : List Char := ['\r', '\n']

/-- `std::string::substr(pos, len)` on an in-range position. -/
def substr (s : List Char) (pos len : Nat) : List Char := (s.drop pos).take len

/-- Index of the first character satisfying `p`, as in `find_first_of` family. -/
def findIdxFrom (p : Char → Bool) : List Char → Option Nat
  | [] => none
  | c :: rest => if p c then some 0 else (findIdxFrom p rest).map (· + 1)

/-- Index of the first occurrence of the two-character sequence CR LF. -/
def findCRLFIn : List Char → Option Nat
  | [] => none
  | c :: rest =>
    if c = '\r' ∧ rest.head? = some '\n' then some 0
    else (findCRLFIn rest).map (· + 1)

/-- `rawMessage.find(CRLF, start)`: `none` plays the role of `npos`. -/
def findCRLF (s : List Char) (start : Nat) : Option Nat :=
  (findCRLFIn (s.drop start)).map (· + start)

/-- `s.find(c, start)` for a single character. -/
def findChar (s : List Char) (c : Char) (start : Nat) : Option Nat :=
  (findIdxFrom (fun a => a = c) (s.drop start)).map (· + start)

/-- `s.find_first_not_of(set, start)`. -/
def findFirstNotOf (s : List Char) (set : List Char) (start : Nat) : Option Nat :=
  (findIdxFrom (fun c => !(set.contains c)) (s.drop start)).map (· + start)

/-- `s.find_last_not_of(set)`. -/
def findLastNotOf (s : List Char) (set : List Char) : Option Nat :=
  (findIdxFrom (fun c => !(set.contains c)) s.reverse).map (fun k => s.length - 1 - k)

/-- `StripMarginWhitespace` from MessageHeaders.cpp: strip leading and
trailing space/tab.  When a first non-whitespace character exists, so does a
last one, hence the catch-all branch is unreachable. -/
def stripMarginWhitespace (s : List Char) : List Char :=
  match findFirstNotOf s WSP 0, findLastNotOf s WSP with
  | some marginLeft, some marginRight => substr s marginLeft (marginRight - marginLeft + 1)
  | _, _ => []

/-- `EndsWith` from MessageHeaders.cpp.  Note the source's condition is
inverted: it returns `true` exactly when `s` does NOT end with `e`.  The
embedding reproduces that behaviour faithfully. -/
def endsWith (s e : List Char) : Bool :=
  decide (s.length < e.length) || !(s.drop (s.length - e.length) == e)

/-- `IsInvisibleAscii` from MessageHeaders.cpp: `(c < 33) || (c > 126)`. -/
def isInvisibleAscii (c : Char) : Bool :=
  decide (c.toNat < 33) || decide (126 < c.toNat)

/-- ASCII `tolower` in the C locale, as applied by `HeaderName::operator==`. -/
def asciiToLower (c : Char) : Char :=
  if 65 ≤ c.toNat ∧ c.toNat ≤ 90 then Char.ofNat (c.toNat + 32) else c

/-- `HeaderName::operator==`: equal lengths and characterwise equality under
ASCII lower-casing. -/
def headerNameEq : List Char → List Char → Bool
  | [], [] => true
  | a :: as, b :: bs => (asciiToLower a == asciiToLower b) && headerNameEq as bs
  | _, _ => false

/-- `MessageHeaders::Header`: an ordered (name, value) pair. -/
structure Header where
  name : List Char
  value : List Char
  deriving DecidableEq, Repr

/-- The line buffer built by `GenerateRawHeaders` for one header:
`name << ": " << value << CRLF`. -/
def headerLine (header : Header) : List Char :=
  header.name ++ [':', ' '] ++ header.value ++ CRLF

/-- The scan loop inside `MakeHeaderLineFoldingStrategy`: walk the candidate
indices in order; the first whitespace hit while `firstPart` is still true
only clears the flag, every later whitespace hit becomes the break offset. -/
def foldScan (s : List Char) : List Nat → Nat → Bool → Nat × Bool
  | [], breakOffset, firstPart => (breakOffset, firstPart)
  | i :: rest, breakOffset, firstPart =>
    if WSP.contains (s.getD i (Char.ofNat 0)) then
      if firstPart then foldScan s rest breakOffset false
      else foldScan s rest i firstPart
    else foldScan s rest breakOffset firstPart

/-- `MessageHeaders::Impl::MakeHeaderLineFoldingStrategy`, with the shared
mutable `firstPart` flag threaded explicitly.  Returns
`(breakOffset, nextOffset, firstPart)` on success and `none` when no break
point is found (the strategy's `false` return).

The C++ computes `2 + (firstPart ? 0 : 1)` where `firstPart` is the
`std::shared_ptr<bool>` itself, never null, so the reserved character count
is always 2 (the dereference `*firstPart` is only used by the
skip-first-whitespace logic).  The scan's upper bound
`startOffset + lineLengthLimit - reservedCharacters` is `size_t`
arithmetic; it underflows exactly when `startOffset = 0` and
`lineLengthLimit < 2`, where the C++ loop indexes the string out of
bounds (undefined behaviour).  The `Nat` truncation used here turns that
corner into a short, in-bounds scan instead, so this definition embeds
the source faithfully only for `2 ≤ lineLengthLimit` (or a strictly
positive `startOffset`); every theorem below that reaches the scan branch
keeps to that domain. -/
def headerLineFoldingStrategy (lineLengthLimit : Nat) (s : List Char)
    (startOffset : Nat) (firstPart : Bool) : Option (Nat × Nat × Bool) :=
  if s.length - startOffset ≤ lineLengthLimit then
    some (s.length, s.length, firstPart)
  else
    let reservedCharacters := 2
    let lastIndex := startOffset + lineLengthLimit - reservedCharacters
    let scanned := foldScan s (List.range' startOffset (lastIndex + 1 - startOffset)) startOffset firstPart
    if scanned.1 = startOffset then none
    else some (scanned.1, scanned.1 + 1, scanned.2)

/-- `SplitLine` from MessageHeaders.cpp, fuelled.  `outputEmpty` tracks
`output.empty()` (the continuator is prepended to every part but the
first); `none` models the `return {};` taken when the strategy fails.
Note that the terminator is appended exactly when the inverted `EndsWith`
returns true, i.e. when the part does not already end with it. -/
def splitLineAuxF (terminator continuator : List Char) (lineLengthLimit : Nat)
    (input : List Char) : Nat → Nat → Bool → Bool → Option (List (List Char))
  | 0, _, _, _ => none
  | fuel + 1, currentLineStart, firstPart, outputEmpty =>
    if currentLineStart < input.length then
      match headerLineFoldingStrategy lineLengthLimit input currentLineStart firstPart with
      | none => none
      | some (breakOffset, nextLineStart, firstPart') =>
        let part0 := (if outputEmpty then [] else continuator) ++
          substr input currentLineStart (breakOffset - currentLineStart)
        let part := if endsWith part0 terminator then part0 ++ terminator else part0
        match splitLineAuxF terminator continuator lineLengthLimit input fuel nextLineStart firstPart' false with
        | none => none
        | some rest => some (part :: rest)
    else some []

/-- `SplitLine` proper: the empty list is returned both for an empty input
and when folding fails. -/
def splitLine (terminator continuator : List Char) (lineLengthLimit : Nat)
    (input : List Char) : List (List Char) :=
  (splitLineAuxF terminator continuator lineLengthLimit input (input.length + 1) 0 true true).getD []

/-- `MessageHeaders::GenerateRawHeaders`: each header's line is emitted
verbatim when no positive limit is set, otherwise the concatenation of the
parts produced by `SplitLine` (none at all when folding fails); a final
CRLF closes the header block. -/
def generateRawHeaders (lineLengthLimit : Nat) (headers : List Header) : List Char :=
  (headers.map (fun header =>
    if 0 < lineLengthLimit then
      (splitLine CRLF [' '] lineLengthLimit (headerLine header)).flatten
    else headerLine header)).flatten ++ CRLF

/-- `SeparateHeaderNameAndValue` from MessageHeaders.cpp. -/
def separateHeaderNameAndValue (rawMessage : List Char) (lineStart lineEnd : Nat) :
    Option (List Char × List Char) :=
  match findChar rawMessage ':' lineStart with
  | none => none
  | some nameValueDelimiter =>
    let name := substr rawMessage lineStart (nameValueDelimiter - lineStart)
    if name.any isInvisibleAscii then none
    else some (name, substr rawMessage (nameValueDelimiter + 1) (lineEnd - nameValueDelimiter - 1))

/-- `AdvanceAndUnfold` from MessageHeaders.cpp, fuelled.  A lookahead line
is unfolded only when its length (terminator excluded) is strictly greater
than `CRLF.length() = 2` AND it starts with space or tab.  The
`find_first_not_of` call cannot miss on reachable inputs (the terminator
just found begins with a carriage return, which is not whitespace); the
`getD` default keeps the function total. -/
def advanceAndUnfoldF (rawMessage : List Char) :
    Nat → Nat → Nat → List Char → Option (Nat × Nat × List Char)
  | 0, _, _, _ => none
  | fuel + 1, offset, lineTerminator, value =>
    let nextLineStart := lineTerminator + CRLF.length
    match findCRLF rawMessage nextLineStart with
    | none => none
    | some nextLineTerminator =>
      let nextLineLength := nextLineTerminator - nextLineStart
      if CRLF.length < nextLineLength ∧ WSP.contains (rawMessage.getD nextLineStart (Char.ofNat 0)) then
        let firstNonWhitespaceInNextLine := (findFirstNotOf rawMessage WSP nextLineStart).getD nextLineTerminator
        let strippedLength := nextLineLength - (firstNonWhitespaceInNextLine - nextLineStart)
        advanceAndUnfoldF rawMessage fuel (nextLineTerminator + CRLF.length) nextLineTerminator
          (value ++ ' ' :: substr rawMessage firstNonWhitespaceInNextLine strippedLength)
      else some (offset, lineTerminator, value)

/-- `AdvanceAndUnfold` wrapper: the fuel dominates the loop, whose
`lineTerminator` strictly increases and stays below the message length. -/
def advanceAndUnfold (rawMessage : List Char) (offset lineTerminator : Nat)
    (value : List Char) : Option (Nat × Nat × List Char) :=
  advanceAndUnfoldF rawMessage (rawMessage.length + 1) offset lineTerminator value

/-- The `while` loop of `MessageHeaders::ParseRawMessage`, fuelled.
Loop exits (`break`) yield `some`, hard failures (`return false`) yield
`none`; the accumulated headers and the final offset are returned. -/
def parseLoopF (lineLengthLimit : Nat) (rawMessage : List Char) :
    Nat → Nat → List Header → Option (List Header × Nat)
  | 0, _, _ => none
  | fuel + 1, offset, headers =>
    if offset < rawMessage.length then
      match findCRLF rawMessage offset with
      | none => some (headers, offset)
      | some lineTerminator =>
        if 0 < lineLengthLimit ∧ lineLengthLimit < lineTerminator + CRLF.length - offset then none
        else if lineTerminator = offset then some (headers, offset + 2)
        else
          match separateHeaderNameAndValue rawMessage offset lineTerminator with
          | none => none
          | some (name, value) =>
            match advanceAndUnfold rawMessage (lineTerminator + CRLF.length) lineTerminator value with
            | none => none
            | some (offset', _, value') =>
              parseLoopF lineLengthLimit rawMessage fuel offset'
                (headers ++ [⟨name, stripMarginWhitespace value'⟩])
    else some (headers, offset)

/-- `MessageHeaders::ParseRawMessage`: run the loop from offset 0 and apply
the post-loop check rejecting a run that consumed no complete line.
`some (headers, bodyOffset)` models a `true` return. -/
def parseRawMessage (lineLengthLimit : Nat) (rawMessage : List Char) :
    Option (List Header × Nat) :=
  match parseLoopF lineLengthLimit rawMessage (rawMessage.length + 1) 0 [] with
  | none => none
  | some (headers, offset) => if offset = 0 then none else some (headers, offset)

/-- The composite-value loop of `MessageHeaders::GetHeaderValue`. -/
def getHeaderValueLoop (name : List Char) : List Header → Bool → List Char
  | [], _ => []
  | header :: rest, isFirstValue =>
    if headerNameEq header.name name then
      (if isFirstValue then [] else [',']) ++ header.value ++ getHeaderValueLoop name rest false
    else getHeaderValueLoop name rest isFirstValue

/-- `MessageHeaders::GetHeaderValue`. -/
def getHeaderValue (headers : List Header) (name : List Char) : List Char :=
  getHeaderValueLoop name headers true

/-- `MessageHeaders::GetHeaderMultiValue`. -/
def getHeaderMultiValue (headers : List Header) (name : List Char) : List (List Char) :=
  match headers with
  | [] => []
  | header :: rest =>
    if headerNameEq header.name name then header.value :: getHeaderMultiValue rest name
    else getHeaderMultiValue rest name

/-- `MessageHeaders::AddHeader`: unconditional append. -/
def addHeader (headers : List Header) (name value : List Char) : List Header :=
  headers ++ [⟨name, value⟩]

/-- The erase/overwrite loop of `MessageHeaders::SetHeader(name, value)`,
returning the transformed list together with the final `haveSetValues`. -/
def setHeaderLoop (name value : List Char) : List Header → Bool → List Header × Bool
  | [], haveSetValues => ([], haveSetValues)
  | header :: rest, haveSetValues =>
    if headerNameEq header.name name then
      if haveSetValues then setHeaderLoop name value rest haveSetValues
      else
        let tail := setHeaderLoop name value rest true
        (⟨header.name, value⟩ :: tail.1, tail.2)
    else
      let tail := setHeaderLoop name value rest haveSetValues
      (header :: tail.1, tail.2)

/-- `MessageHeaders::SetHeader(name, value)`. -/
def setHeader (headers : List Header) (name value : List Char) : List Header :=
  let looped := setHeaderLoop name value headers false
  if looped.2 then looped.1 else addHeader looped.1 name value

/-- The line splitter used by the unit test `FoldLineThatWouldExceedLimit`
(test/src/MessageHeadersTests.cpp) to slice rendered output back into
terminator-free lines, fuelled. -/
def collectLinesF (rawHeaders : List Char) : Nat → Nat → List (List Char)
  | 0, _ => []
  | fuel + 1, offset =>
    if offset < rawHeaders.length then
      match findCRLF rawHeaders offset with
      | none => []
      | some lineTerminator =>
        substr rawHeaders offset (lineTerminator - offset) ::
          collectLinesF rawHeaders fuel (lineTerminator + 2)
    else []

/-- Wrapper for `collectLinesF`. -/
def collectLines (rawHeaders : List Char) : List (List Char) :=
  collectLinesF rawHeaders (rawHeaders.length + 1) 0

/-- Spec-side definition, following the claim's words for `set(name, value)`
when at least one entry matches: overwrite the first matching entry's value
in place and delete every subsequent matching entry. -/
def setHeaderSpec (name value : List Char) : List Header → List Header
  | [] => []
  | header :: rest =>
    if headerNameEq header.name name then
      ⟨header.name, value⟩ :: rest.filter (fun h => !(headerNameEq h.name name))
    else header :: setHeaderSpec name value rest

/-- A character allowed in a canonical header name: printable ASCII other
than the colon delimiter. -/
def validNameChar (c : Char) : Bool := !(isInvisibleAscii c) && !(c = ':')

/-- A header whose canonical rendering `name ++ ": " ++ value ++ CRLF`
round-trips: printable colon-free name, value free of CR and LF and of
leading/trailing blanks (phrased as the parser's own margin strip being the
identity on the raw value `' ' :: value`), and the rendered line within a
positive limit. -/
def CanonicalHeader (lineLengthLimit : Nat) (h : Header) : Prop :=
  h.name.all validNameChar = true ∧
  h.value.all (fun c => !(c = '\r') && !(c = '\n')) = true ∧
  stripMarginWhitespace (' ' :: h.value) = h.value ∧
  (0 < lineLengthLimit → (headerLine h).length ≤ lineLengthLimit)

/-- The canonical wire form of a header collection: the canonical line of
each header in order, closed by the final empty CRLF line. -/
def rawOf (headers : List Header) : List Char :=
  (headers.map headerLine).flatten ++ CRLF

instance (L : Nat) (h : Header) : Decidable (CanonicalHeader L h) := by
  unfold CanonicalHeader; infer_instance

/-! Basic facts about the embedded string primitives. -/

lemma headD_drop (l : List Char) (n : Nat) (d : Char) :
    l.getD n d = (l.drop n).headD d := by
  induction l generalizing n with
  | nil => simp [List.getD]
  | cons a l ih =>
    cases n with
    | zero => simp
    | succ m => simp [ih m]

lemma findIdxFrom_append (p : Char → Bool) (xs : List Char) (y : Char) (rest : List Char)
    (hxs : ∀ c ∈ xs, p c = false) (hy : p y = true) :
    findIdxFrom p (xs ++ y :: rest) = some xs.length := by
  induction xs with
  | nil => simp [findIdxFrom, hy]
  | cons a as ih =>
    have ha : p a = false := hxs a (by simp)
    have := ih (fun c hc => hxs c (by simp [hc]))
    simp [findIdxFrom, ha, this]

lemma findIdxFrom_none (p : Char → Bool) (xs : List Char)
    (h : ∀ c ∈ xs, p c = false) : findIdxFrom p xs = none := by
  induction xs with
  | nil => rfl
  | cons a as ih =>
    have ha : p a = false := h a (by simp)
    have := ih (fun c hc => h c (by simp [hc]))
    simp [findIdxFrom, ha, this]

lemma findCRLFIn_append (xs rest : List Char) (h : ∀ c ∈ xs, c ≠ '\r') :
    findCRLFIn (xs ++ '\r' :: '\n' :: rest) = some xs.length := by
  induction xs with
  | nil => simp [findCRLFIn]
  | cons a as ih =>
    have ha : a ≠ '\r' := h a (by simp)
    have := ih (fun c hc => h c (by simp [hc]))
    simp only [List.cons_append, findCRLFIn]
    rw [if_neg (by simp [ha])]
    simp [this]

lemma findCRLFIn_none (xs : List Char) (h : ∀ c ∈ xs, c ≠ '\r') :
    findCRLFIn xs = none := by
  induction xs with
  | nil => rfl
  | cons a as ih =>
    have ha : a ≠ '\r' := h a (by simp)
    have := ih (fun c hc => h c (by simp [hc]))
    simp only [findCRLFIn, this]
    rw [if_neg (by simp [ha])]
    simp

lemma findCRLFIn_bound (xs : List Char) :
    ∀ i, findCRLFIn xs = some i → i + 2 ≤ xs.length := by
  induction xs with
  | nil => intro i h; simp [findCRLFIn] at h
  | cons a as ih =>
    intro i h
    simp only [findCRLFIn] at h
    by_cases hc : a = '\r' ∧ as.head? = some '\n'
    · rw [if_pos hc] at h
      obtain ⟨-, h2⟩ := hc
      cases as with
      | nil => simp at h2
      | cons b bs =>
        simp at h
        simp [← h]
    · rw [if_neg hc] at h
      cases hfind : findCRLFIn as with
      | none => rw [hfind] at h; simp at h
      | some j =>
        rw [hfind] at h
        simp at h
        have := ih j hfind
        simp [← h]
        omega

lemma findCRLF_bound (s : List Char) (start t : Nat)
    (h : findCRLF s start = some t) : start ≤ t ∧ t + 2 ≤ s.length := by
  unfold findCRLF at h
  cases hfind : findCRLFIn (s.drop start) with
  | none => rw [hfind] at h; simp at h
  | some i =>
    rw [hfind] at h
    simp at h
    have hb := findCRLFIn_bound _ i hfind
    rw [List.length_drop] at hb
    omega

/-! Facts about the folding strategy and `SplitLine`. -/

lemma foldScan_ge (s : List Char) (a : Nat) :
    ∀ (idxs : List Nat) (br : Nat) (fp : Bool),
      a ≤ br → (∀ i ∈ idxs, a ≤ i) → a ≤ (foldScan s idxs br fp).1 := by
  intro idxs
  induction idxs with
  | nil => intro br fp hbr _; simpa [foldScan] using hbr
  | cons i rest ih =>
    intro br fp hbr hall
    have hi : a ≤ i := hall i (by simp)
    have hrest : ∀ j ∈ rest, a ≤ j := fun j hj => hall j (by simp [hj])
    simp only [foldScan]
    by_cases hw : WSP.contains (s.getD i (Char.ofNat 0))
    · rw [if_pos hw]
      by_cases hf : fp
      · rw [if_pos hf]; exact ih br false hbr hrest
      · rw [if_neg hf]; exact ih i fp hi hrest
    · rw [if_neg hw]; exact ih br fp hbr hrest

lemma headerLineFoldingStrategy_lt (L : Nat) (s : List Char) (start : Nat) (fp : Bool)
    (br nx : Nat) (fp' : Bool)
    (h : headerLineFoldingStrategy L s start fp = some (br, nx, fp'))
    (hstart : start < s.length) : start < br := by
  unfold headerLineFoldingStrategy at h
  by_cases hfits : s.length - start ≤ L
  · rw [if_pos hfits] at h
    simp at h
    omega
  · rw [if_neg hfits] at h
    simp only [] at h
    set scanned := foldScan s (List.range' start (start + L - 2 + 1 - start)) start fp with hscan
    by_cases hne : scanned.1 = start
    · rw [if_pos hne] at h; simp at h
    · rw [if_neg hne] at h
      simp at h
      have hge : start ≤ scanned.1 := by
        rw [hscan]
        refine foldScan_ge s start _ start fp (le_refl start) ?_
        intro i hi
        have := List.mem_range'.mp hi
        omega
      omega

lemma splitLineAuxF_ne_nil (cont : List Char) (L : Nat) (input : List Char) :
    ∀ (fuel start : Nat) (fp oe : Bool) (parts : List (List Char)),
      splitLineAuxF CRLF cont L input fuel start fp oe = some parts →
      ∀ p ∈ parts, p ≠ [] := by
  intro fuel
  induction fuel with
  | zero => intro start fp oe parts h; simp [splitLineAuxF] at h
  | succ fuel ih =>
    intro start fp oe parts h
    simp only [splitLineAuxF] at h
    by_cases hlt : start < input.length
    · rw [if_pos hlt] at h
      cases hstrat : headerLineFoldingStrategy L input start fp with
      | none => rw [hstrat] at h; simp at h
      | some res =>
        obtain ⟨br, nx, fp'⟩ := res
        rw [hstrat] at h
        simp only [] at h
        cases hrec : splitLineAuxF CRLF cont L input fuel nx fp' false with
        | none => rw [hrec] at h; simp at h
        | some rest =>
          rw [hrec] at h
          simp at h
          intro p hp
          rw [← h] at hp
          rcases List.mem_cons.mp hp with hp | hp
          · subst hp
            have hbr : start < br := headerLineFoldingStrategy_lt L input start fp br nx fp' hstrat hlt
            have hsub : substr input start (br - start) ≠ [] := by
              unfold substr
              have : ((input.drop start).take (br - start)).length = min (br - start) (input.length - start) := by
                simp
              intro hnil
              rw [hnil] at this
              simp at this
              omega
            have hpart0 : (if oe then ([] : List Char) else cont) ++ substr input start (br - start) ≠ [] := by
              intro hnil
              rcases List.append_eq_nil.mp hnil with ⟨-, h2⟩
              exact hsub h2
            by_cases hend : endsWith ((if oe then ([] : List Char) else cont) ++ substr input start (br - start)) CRLF
            · rw [if_pos hend]
              intro hnil
              simp [CRLF] at hnil
            · rw [if_neg hend]
              exact hpart0
          · exact ih nx fp' false rest hrec p hp
    · rw [if_neg hlt] at h
      simp at h
      subst h
      simp

/-! Facts about `AdvanceAndUnfold`. -/

lemma length_CRLF : CRLF.length = 2 := rfl

lemma advanceAndUnfoldF_fuel (msg : List Char) :
    ∀ (fuel₁ fuel₂ offset t : Nat) (v : List Char),
      msg.length - t < fuel₁ → msg.length - t < fuel₂ →
      advanceAndUnfoldF msg fuel₁ offset t v = advanceAndUnfoldF msg fuel₂ offset t v := by
  intro fuel₁
  induction fuel₁ with
  | zero => intro fuel₂ offset t v h1 h2; omega
  | succ fuel₁ ih =>
    intro fuel₂ offset t v h1 h2
    cases fuel₂ with
    | zero => omega
    | succ fuel₂ =>
      simp only [advanceAndUnfoldF]
      cases hfind : findCRLF msg (t + CRLF.length) with
      | none => simp [hfind]
      | some t2 =>
        have hb := findCRLF_bound msg (t + CRLF.length) t2 hfind
        rw [length_CRLF] at hb
        simp only [hfind]
        by_cases hcond : CRLF.length < t2 - (t + CRLF.length) ∧
            WSP.contains (msg.getD (t + CRLF.length) (Char.ofNat 0)) = true
        · rw [if_pos hcond, if_pos hcond]
          exact ih fuel₂ (t2 + CRLF.length) t2 _ (by omega) (by omega)
        · rw [if_neg hcond, if_neg hcond]

lemma findIdxFrom_not_wsp (B cs : List Char) :
    findIdxFrom (fun c => !(WSP.contains c)) (B ++ '\r' :: cs) =
      some (B.takeWhile (fun c => WSP.contains c)).length := by
  induction B with
  | nil => simp [findIdxFrom, WSP]
  | cons b B' ih =>
    rw [show (b :: B') ++ '\r' :: cs = b :: (B' ++ '\r' :: cs) from rfl]
    simp only [findIdxFrom, List.takeWhile_cons]
    by_cases hb : WSP.contains b = true
    · simp only [hb, Bool.not_true, Bool.false_eq_true, if_false, if_true, ih]
      simp
    · have hb' : WSP.contains b = false := by simpa using hb
      simp only [hb', Bool.not_false, Bool.false_eq_true, if_false, if_true]
      simp

lemma drop_length_takeWhile (p : Char → Bool) (l : List Char) :
    l.drop (l.takeWhile p).length = l.dropWhile p := by
  induction l with
  | nil => simp
  | cons a l ih =>
    by_cases h : p a
    · simp [List.takeWhile_cons, List.dropWhile_cons, h, ih]
    · simp [List.takeWhile_cons, List.dropWhile_cons, h]

lemma advanceAndUnfold_unterminated (A B : List Char) (offset : Nat) (v : List Char)
    (hB : ∀ c ∈ B, c ≠ '\r') :
    advanceAndUnfold (A ++ CRLF ++ B) offset A.length v = none := by
  have hdrop : (A ++ CRLF ++ B).drop (A.length + CRLF.length) = B := by
    rw [show A ++ CRLF ++ B = (A ++ CRLF) ++ B by simp [List.append_assoc]]
    exact List.drop_left' (by simp)
  unfold advanceAndUnfold
  simp only [advanceAndUnfoldF, findCRLF, hdrop, findCRLFIn_none B hB, Option.map_none']

lemma advanceAndUnfold_step (A B C : List Char) (offset : Nat) (v : List Char)
    (hB : ∀ c ∈ B, c ≠ '\r') :
    advanceAndUnfold (A ++ CRLF ++ B ++ CRLF ++ C) offset A.length v =
      if 2 < B.length ∧ WSP.contains (B.headD (Char.ofNat 0)) = true then
        advanceAndUnfold (A ++ CRLF ++ B ++ CRLF ++ C) (A.length + 2 + B.length + 2)
          (A.length + 2 + B.length) (v ++ ' ' :: B.dropWhile (fun c => WSP.contains c))
      else some (offset, A.length, v) := by
  have hdrop : (A ++ CRLF ++ B ++ CRLF ++ C).drop (A.length + CRLF.length) = B ++ CRLF ++ C := by
    rw [show A ++ CRLF ++ B ++ CRLF ++ C = (A ++ CRLF) ++ (B ++ CRLF ++ C) by
      simp [List.append_assoc]]
    exact List.drop_left' (by simp)
  have hlen : (A ++ CRLF ++ B ++ CRLF ++ C).length = A.length + 2 + B.length + 2 + C.length := by
    simp [CRLF]
    omega
  have hfind : findCRLF (A ++ CRLF ++ B ++ CRLF ++ C) (A.length + CRLF.length) =
      some (B.length + (A.length + CRLF.length)) := by
    unfold findCRLF
    rw [hdrop]
    rw [show B ++ CRLF ++ C = B ++ '\r' :: '\n' :: C by simp [CRLF]]
    rw [findCRLFIn_append B C hB]
    rfl
  have hget : (A ++ CRLF ++ B ++ CRLF ++ C).getD (A.length + CRLF.length) (Char.ofNat 0) =
      (B ++ CRLF ++ C).headD (Char.ofNat 0) := by
    rw [headD_drop, hdrop]
  conv_lhs => unfold advanceAndUnfold
  conv_lhs => unfold advanceAndUnfoldF
  simp only [hfind, hget, Nat.add_sub_cancel]
  cases B with
  | nil =>
    rw [if_neg (by rw [length_CRLF]; simp), if_neg (by simp)]
  | cons b B' =>
    have hhead : (b :: B' ++ CRLF ++ C).headD (Char.ofNat 0) = b := by simp
    have hheadg : (b :: B').headD (Char.ofNat 0) = b := by simp
    rw [hhead, hheadg]
    by_cases hcond : 2 < (b :: B').length ∧ WSP.contains b = true
    · rw [if_pos (by rw [length_CRLF]; exact hcond), if_pos hcond]
      have hfnw : findFirstNotOf (A ++ CRLF ++ (b :: B') ++ CRLF ++ C) WSP (A.length + CRLF.length) =
          some (((b :: B').takeWhile (fun c => WSP.contains c)).length + (A.length + CRLF.length)) := by
        unfold findFirstNotOf
        rw [hdrop]
        rw [show (b :: B') ++ CRLF ++ C = (b :: B') ++ '\r' :: '\n' :: C by simp [CRLF]]
        rw [findIdxFrom_not_wsp (b :: B') ('\n' :: C)]
        rfl
      rw [hfnw]
      simp only [Option.getD_some, Nat.add_sub_cancel]
      have hk : ((b :: B').takeWhile (fun c => WSP.contains c)).length ≤ (b :: B').length :=
        (List.takeWhile_sublist _).length_le
      have hdropk : (A ++ CRLF ++ (b :: B') ++ CRLF ++ C).drop
          (((b :: B').takeWhile (fun c => WSP.contains c)).length + (A.length + CRLF.length)) =
          (b :: B').drop ((b :: B').takeWhile (fun c => WSP.contains c)).length ++ (CRLF ++ C) := by
        have h1 : ∀ (l : List Char) (n m : Nat), l.drop (n + m) = (l.drop m).drop n := by
          intro l n m
          rw [List.drop_drop, Nat.add_comm]
        rw [h1 _ _ (A.length + CRLF.length), hdrop]
        rw [show (b :: B') ++ CRLF ++ C = (b :: B') ++ (CRLF ++ C) by simp [List.append_assoc]]
        exact List.drop_append_of_le_length hk
      have hsub : substr (A ++ CRLF ++ (b :: B') ++ CRLF ++ C)
          (((b :: B').takeWhile (fun c => WSP.contains c)).length + (A.length + CRLF.length))
          ((b :: B').length - ((b :: B').takeWhile (fun c => WSP.contains c)).length) =
          (b :: B').dropWhile (fun c => WSP.contains c) := by
        unfold substr
        rw [hdropk]
        rw [List.take_left' (by simp)]
        exact drop_length_takeWhile _ _
      rw [hsub]
      conv_rhs => unfold advanceAndUnfold
      have e1 : (b :: B').length + (A.length + CRLF.length) + CRLF.length =
          A.length + 2 + (b :: B').length + 2 := by
        rw [length_CRLF]
        omega
      have e2 : (b :: B').length + (A.length + CRLF.length) = A.length + 2 + (b :: B').length := by
        rw [length_CRLF]
        omega
      rw [e1, e2]
      apply advanceAndUnfoldF_fuel
      · rw [hlen]
        omega
      · rw [hlen]
        omega
    · rw [if_neg (by rw [length_CRLF]; exact hcond), if_neg hcond]

/-! Canonical headers: facts feeding the round-trip proof. -/

lemma validNameChar_parts (c : Char) (h : validNameChar c = true) :
    isInvisibleAscii c = false ∧ c ≠ ':' ∧ c ≠ '\r' ∧ WSP.contains c = false := by
  unfold validNameChar at h
  rw [Bool.and_eq_true] at h
  obtain ⟨h1, h2⟩ := h
  have hinv : isInvisibleAscii c = false := by simpa using h1
  have hcolon : c ≠ ':' := by simpa using h2
  refine ⟨hinv, hcolon, ?_, ?_⟩
  · intro hc
    subst hc
    exact absurd hinv (by decide)
  · by_contra hw
    have hw' : c ∈ WSP := List.elem_iff.mp (by simpa using hw)
    have : c = ' ' ∨ c = '\t' := by simpa [WSP] using hw'
    rcases this with rfl | rfl <;> exact absurd hinv (by decide)

lemma canonical_no_cr (L : Nat) (h : Header) (hc : CanonicalHeader L h) :
    ∀ c ∈ h.name ++ [':', ' '] ++ h.value, c ≠ '\r' := by
  obtain ⟨hname, hvalue, -, -⟩ := hc
  rw [List.all_eq_true] at hname hvalue
  intro c hmem
  simp only [List.mem_append] at hmem
  rcases hmem with (hm | hm) | hm
  · exact (validNameChar_parts c (hname c hm)).2.2.1
  · have : c = ':' ∨ c = ' ' := by simpa using hm
    rcases this with rfl | rfl <;> decide
  · have := hvalue c hm
    rw [Bool.and_eq_true] at this
    simpa using this.1

lemma canonical_head_not_wsp (L : Nat) (h : Header) (hc : CanonicalHeader L h) :
    WSP.contains ((h.name ++ [':', ' '] ++ h.value).headD (Char.ofNat 0)) = false := by
  obtain ⟨hname, -, -, -⟩ := hc
  rw [List.all_eq_true] at hname
  cases hn : h.name with
  | nil => simp [hn]; decide
  | cons a as =>
    have hwa : WSP.contains a = false := (validNameChar_parts a (hname a (by simp [hn]))).2.2.2
    simp only [hn, List.cons_append, List.headD_cons]
    exact hwa

lemma headerLine_decomp (h : Header) :
    headerLine h = (h.name ++ [':', ' '] ++ h.value) ++ CRLF := by
  simp [headerLine, List.append_assoc]

lemma headerLine_length (h : Header) :
    (headerLine h).length = h.name.length + 2 + h.value.length + 2 := by
  simp [headerLine, CRLF]
  omega

lemma rawOf_cons (h : Header) (hs : List Header) :
    rawOf (h :: hs) = headerLine h ++ rawOf hs := by
  simp [rawOf, List.append_assoc]

lemma rawOf_nil : rawOf [] = CRLF := by
  simp [rawOf]

lemma rawOf_length_ge (hs : List Header) : 2 ≤ (rawOf hs).length ∧ hs.length < (rawOf hs).length := by
  induction hs with
  | nil => simp [rawOf_nil, CRLF]
  | cons h hs ih =>
    rw [rawOf_cons]
    rw [List.length_append, headerLine_length]
    constructor
    · omega
    · simp only [List.length_cons]
      omega

lemma advanceAndUnfold_no_continuation (A B C : List Char) (offset : Nat) (v : List Char)
    (hB : ∀ c ∈ B, c ≠ '\r')
    (hw : B.length ≤ 2 ∨ WSP.contains (B.headD (Char.ofNat 0)) = false) :
    advanceAndUnfold (A ++ CRLF ++ B ++ CRLF ++ C) offset A.length v =
      some (offset, A.length, v) := by
  rw [advanceAndUnfold_step A B C offset v hB]
  rw [if_neg]
  rintro ⟨h1, h2⟩
  rcases hw with hw | hw
  · omega
  · rw [hw] at h2
    simp at h2

lemma parseLoopF_rawOf (L : Nat) (hL : L = 0 ∨ 2 ≤ L) :
    ∀ (hs : List Header), (∀ h ∈ hs, CanonicalHeader L h) →
    ∀ (fuel : Nat), hs.length < fuel →
    ∀ (pre : List Char) (acc : List Header),
      parseLoopF L (pre ++ rawOf hs) fuel pre.length acc =
        some (acc ++ hs, pre.length + (rawOf hs).length) := by
  intro hs
  induction hs with
  | nil =>
    intro _ fuel hfuel pre acc
    obtain ⟨f, rfl⟩ : ∃ f, fuel = f + 1 := ⟨fuel - 1, by omega⟩
    rw [rawOf_nil]
    simp only [parseLoopF]
    rw [if_pos (by simp [CRLF])]
    have hfind : findCRLF (pre ++ CRLF) pre.length = some pre.length := by
      unfold findCRLF
      rw [List.drop_left' rfl]
      rw [show findCRLFIn CRLF = some 0 from rfl]
      simp
    simp only [hfind]
    rw [if_neg (by rw [length_CRLF]; omega)]
    rw [if_pos trivial]
    simp [CRLF]
  | cons h hs ih =>
    obtain ⟨n, v⟩ := h
    intro hcan fuel hfuel pre acc
    obtain ⟨f, rfl⟩ : ∃ f, fuel = f + 1 := ⟨fuel - 1, by omega⟩
    obtain ⟨hname, hvalue, hstrip, hlimit⟩ := hcan ⟨n, v⟩ (by simp)
    have hnamev : ∀ c ∈ n, validNameChar c = true := by
      rw [List.all_eq_true] at hname
      exact fun c hc => hname c hc
    have hB0cr : ∀ c ∈ n ++ [':', ' '] ++ v, c ≠ '\r' :=
      canonical_no_cr L ⟨n, v⟩ ⟨hname, hvalue, hstrip, hlimit⟩
    have hmsg : pre ++ rawOf (⟨n, v⟩ :: hs) =
        pre ++ (((n ++ [':', ' '] ++ v) ++ CRLF) ++ rawOf hs) := by
      rw [rawOf_cons, headerLine_decomp]
    have hB0len : (n ++ [':', ' '] ++ v).length = n.length + 2 + v.length := by
      simp
      omega
    have hmsglen : (pre ++ rawOf (⟨n, v⟩ :: hs)).length =
        pre.length + (n.length + 2 + v.length + 2) + (rawOf hs).length := by
      rw [hmsg]
      simp [CRLF]
      omega
    have hdrop : (pre ++ rawOf (⟨n, v⟩ :: hs)).drop pre.length =
        (n ++ [':', ' '] ++ v) ++ '\r' :: '\n' :: rawOf hs := by
      rw [hmsg, List.drop_left' rfl]
      simp [CRLF, List.append_assoc]
    have hfind : findCRLF (pre ++ rawOf (⟨n, v⟩ :: hs)) pre.length =
        some (pre.length + (n ++ [':', ' '] ++ v).length) := by
      unfold findCRLF
      rw [hdrop, findCRLFIn_append _ _ hB0cr]
      simp [Nat.add_comm]
    have hshape : (n ++ [':', ' '] ++ v) ++ '\r' :: '\n' :: rawOf hs =
        n ++ ':' :: ' ' :: (v ++ '\r' :: '\n' :: rawOf hs) := by
      simp [List.append_assoc]
    have hsep : separateHeaderNameAndValue (pre ++ rawOf (⟨n, v⟩ :: hs)) pre.length
        (pre.length + (n ++ [':', ' '] ++ v).length) = some (n, ' ' :: v) := by
      unfold separateHeaderNameAndValue
      have hcolon : findChar (pre ++ rawOf (⟨n, v⟩ :: hs)) ':' pre.length =
          some (pre.length + n.length) := by
        unfold findChar
        rw [hdrop, hshape]
        rw [findIdxFrom_append _ n ':' _
          (fun c hc => by simpa using (validNameChar_parts c (hnamev c hc)).2.1) (by simp)]
        simp [Nat.add_comm]
      rw [hcolon]
      have hnamesub : substr (pre ++ rawOf (⟨n, v⟩ :: hs)) pre.length
          (pre.length + n.length - pre.length) = n := by
        unfold substr
        rw [hdrop, hshape]
        rw [show pre.length + n.length - pre.length = n.length by omega]
        exact List.take_left' rfl
      have hanyf : n.any isInvisibleAscii = false := by
        cases hany : n.any isInvisibleAscii with
        | false => rfl
        | true =>
          rw [List.any_eq_true] at hany
          obtain ⟨c, hc, hcinv⟩ := hany
          rw [(validNameChar_parts c (hnamev c hc)).1] at hcinv
          cases hcinv
      have hvalsub : substr (pre ++ rawOf (⟨n, v⟩ :: hs)) (pre.length + n.length + 1)
          (pre.length + (n ++ [':', ' '] ++ v).length - (pre.length + n.length) - 1) =
          ' ' :: v := by
        unfold substr
        have hd2 : (pre ++ rawOf (⟨n, v⟩ :: hs)).drop (pre.length + n.length + 1) =
            ' ' :: (v ++ '\r' :: '\n' :: rawOf hs) := by
          have e : pre.length + n.length + 1 = pre.length + (n.length + 1) := by omega
          rw [e, ← List.drop_drop, hdrop, hshape]
          rw [show n ++ ':' :: ' ' :: (v ++ '\r' :: '\n' :: rawOf hs) =
            (n ++ [':']) ++ (' ' :: (v ++ '\r' :: '\n' :: rawOf hs)) by simp [List.append_assoc]]
          exact List.drop_left' (by simp)
        rw [hd2]
        rw [show pre.length + (n ++ [':', ' '] ++ v).length - (pre.length + n.length) - 1 =
          v.length + 1 by rw [hB0len]; omega]
        simp only [List.take_succ_cons]
        rw [List.take_left' rfl]
      simp only [hnamesub, hanyf, hvalsub]
      simp
    have hadv : advanceAndUnfold (pre ++ rawOf (⟨n, v⟩ :: hs))
        (pre.length + (n ++ [':', ' '] ++ v).length + CRLF.length)
        (pre.length + (n ++ [':', ' '] ++ v).length) (' ' :: v) =
        some (pre.length + (n ++ [':', ' '] ++ v).length + CRLF.length,
          pre.length + (n ++ [':', ' '] ++ v).length, ' ' :: v) := by
      have hA : pre.length + (n ++ [':', ' '] ++ v).length =
          (pre ++ (n ++ [':', ' '] ++ v)).length := by simp
      rw [hA]
      cases hs with
      | nil =>
        have hform : pre ++ rawOf [⟨n, v⟩] =
            (pre ++ (n ++ [':', ' '] ++ v)) ++ CRLF ++ [] ++ CRLF ++ [] := by
          rw [rawOf_cons, headerLine_decomp, rawOf_nil]
          simp [List.append_assoc]
        rw [hform]
        exact advanceAndUnfold_no_continuation _ [] [] _ _ (by simp) (Or.inl (by simp))
      | cons h2 hs2 =>
        obtain ⟨n2, v2⟩ := h2
        have hc2 := hcan ⟨n2, v2⟩ (by simp)
        have hform : pre ++ rawOf (⟨n, v⟩ :: ⟨n2, v2⟩ :: hs2) =
            (pre ++ (n ++ [':', ' '] ++ v)) ++ CRLF ++ (n2 ++ [':', ' '] ++ v2) ++ CRLF ++
              rawOf hs2 := by
          rw [rawOf_cons, headerLine_decomp, rawOf_cons, headerLine_decomp]
          simp [List.append_assoc]
        rw [hform]
        exact advanceAndUnfold_no_continuation _ _ _ _ _
          (canonical_no_cr L ⟨n2, v2⟩ hc2)
          (Or.inr (canonical_head_not_wsp L ⟨n2, v2⟩ hc2))
    simp only [parseLoopF]
    rw [if_pos (by rw [hmsglen]; omega)]
    simp only [hfind]
    rw [if_neg (by
      rw [length_CRLF]
      rintro ⟨hpos, hlt⟩
      have := hlimit hpos
      rw [headerLine_length] at this
      simp only at this
      rw [hB0len] at hlt
      omega)]
    rw [if_neg (by rw [hB0len]; omega)]
    have hstrip' : stripMarginWhitespace (' ' :: v) = v := hstrip
    simp only [hsep, hadv, hstrip']
    have hpre2 : pre.length + (n ++ [':', ' '] ++ v).length + CRLF.length =
        (pre ++ headerLine ⟨n, v⟩).length := by
      rw [length_CRLF, hB0len]
      simp [headerLine_length]
      omega
    rw [hpre2]
    have hmsg2 : pre ++ rawOf (⟨n, v⟩ :: hs) = (pre ++ headerLine ⟨n, v⟩) ++ rawOf hs := by
      rw [rawOf_cons]
      simp [List.append_assoc]
    rw [hmsg2]
    have hih := ih (fun h' hh => hcan h' (by simp [hh])) f (by simpa using hfuel)
      (pre ++ headerLine (Header.mk n v)) (acc ++ [Header.mk n v])
    rw [hih]
    simp only [Option.some.injEq, Prod.mk.injEq]
    constructor
    · simp
    · rw [rawOf_cons]
      simp
      omega

lemma endsWith_append_crlf (base : List Char) :
    endsWith (base ++ CRLF) CRLF = false := by
  unfold endsWith
  have h1 : ¬ (base ++ CRLF).length < CRLF.length := by
    simp [CRLF]
  have h2 : (base ++ CRLF).drop ((base ++ CRLF).length - CRLF.length) = CRLF := by
    have e : (base ++ CRLF).length - CRLF.length = base.length := by
      simp
    rw [e]
    exact List.drop_left base CRLF
  rw [h2, decide_eq_false h1]
  simp

lemma splitLineAuxF_done (terminator continuator : List Char) (L : Nat) (input : List Char)
    (fuel start : Nat) (fp oe : Bool) (hfuel : 0 < fuel) (hstart : input.length ≤ start) :
    splitLineAuxF terminator continuator L input fuel start fp oe = some [] := by
  obtain ⟨f, rfl⟩ : ∃ f, fuel = f + 1 := ⟨fuel - 1, by omega⟩
  simp only [splitLineAuxF]
  rw [if_neg (by omega)]

lemma splitLine_fits (L : Nat) (base : List Char)
    (hlen : (base ++ CRLF).length ≤ L) :
    splitLine CRLF [' '] L (base ++ CRLF) = [base ++ CRLF] := by
  unfold splitLine
  simp only [splitLineAuxF]
  rw [if_pos (by simp [CRLF])]
  unfold headerLineFoldingStrategy
  rw [if_pos (by omega)]
  simp only []
  rw [splitLineAuxF_done CRLF [' '] L (base ++ CRLF) (base ++ CRLF).length
    (base ++ CRLF).length true false (by simp [CRLF]) (le_refl _)]
  have htake : List.take (base.length + CRLF.length) (base ++ CRLF) = base ++ CRLF := by
    rw [show base.length + CRLF.length = (base ++ CRLF).length by simp]
    exact List.take_length _
  simp [substr, htake, endsWith_append_crlf]

lemma generateRawHeaders_rawOf (L : Nat) (hs : List Header)
    (hcan : ∀ h ∈ hs, CanonicalHeader L h) :
    generateRawHeaders L hs = rawOf hs := by
  unfold generateRawHeaders rawOf
  congr 2
  apply List.map_congr_left
  intro h hh
  by_cases hL : 0 < L
  · rw [if_pos hL]
    obtain ⟨-, -, -, hlimit⟩ := hcan h hh
    rw [headerLine_decomp]
    rw [splitLine_fits L (h.name ++ [':', ' '] ++ h.value)
      (by rw [← headerLine_decomp]; exact hlimit hL)]
    simp
  · rw [if_neg hL]

lemma parseRawMessage_rawOf (L : Nat) (hL : L = 0 ∨ 2 ≤ L) (hs : List Header)
    (hcan : ∀ h ∈ hs, CanonicalHeader L h) :
    parseRawMessage L (rawOf hs) = some (hs, (rawOf hs).length) := by
  unfold parseRawMessage
  have h0 := parseLoopF_rawOf L hL hs hcan ((rawOf hs).length + 1)
    (by have := (rawOf_length_ge hs).2; omega) [] []
  simp only [List.nil_append, List.length_nil, Nat.zero_add] at h0
  rw [h0]
  have h2 : (rawOf hs).length ≠ 0 := by
    have := (rawOf_length_ge hs).1
    omega
  simp [h2]

/-! Facts about the header-store operations. -/

lemma headerNameEq_refl (s : List Char) : headerNameEq s s = true := by
  induction s with
  | nil => rfl
  | cons a as ih => simp [headerNameEq, ih]

lemma setHeaderLoop_erase (n v : List Char) :
    ∀ hs : List Header, setHeaderLoop n v hs true =
      (hs.filter (fun h => !(headerNameEq h.name n)), true) := by
  intro hs
  induction hs with
  | nil => rfl
  | cons h t ih =>
    by_cases hm : headerNameEq h.name n = true
    · simp [setHeaderLoop, hm, ih, List.filter_cons]
    · have hm' : headerNameEq h.name n = false := by simpa using hm
      simp [setHeaderLoop, hm', ih, List.filter_cons]

lemma setHeaderLoop_no_match (n v : List Char) :
    ∀ hs : List Header, hs.any (fun h => headerNameEq h.name n) = false →
      setHeaderLoop n v hs false = (hs, false) := by
  intro hs
  induction hs with
  | nil => intro _; rfl
  | cons h t ih =>
    intro hany
    simp only [List.any_cons, Bool.or_eq_false_iff] at hany
    simp [setHeaderLoop, hany.1, ih hany.2]

lemma setHeaderLoop_match (n v : List Char) :
    ∀ hs : List Header, hs.any (fun h => headerNameEq h.name n) = true →
      setHeaderLoop n v hs false = (setHeaderSpec n v hs, true) := by
  intro hs
  induction hs with
  | nil => intro hany; simp at hany
  | cons h t ih =>
    intro hany
    by_cases hm : headerNameEq h.name n = true
    · simp [setHeaderLoop, hm, setHeaderLoop_erase, setHeaderSpec]
    · have hm' : headerNameEq h.name n = false := by simpa using hm
      have h2 : t.any (fun h => headerNameEq h.name n) = true := by
        simpa [hm'] using hany
      simp [setHeaderLoop, hm', setHeaderSpec, ih h2]

lemma setHeaderSpec_count (n v : List Char) :
    ∀ hs : List Header, hs.any (fun h => headerNameEq h.name n) = true →
      ((setHeaderSpec n v hs).filter (fun h => headerNameEq h.name n)).length = 1 := by
  intro hs
  induction hs with
  | nil => intro hany; simp at hany
  | cons h t ih =>
    intro hany
    by_cases hm : headerNameEq h.name n = true
    · simp only [setHeaderSpec, hm, if_pos]
      rw [List.filter_cons]
      simp only [hm, if_pos]
      rw [List.filter_filter]
      have : (fun (a : Header) => headerNameEq a.name n && !(headerNameEq a.name n)) =
          fun _ => false := by
        funext a
        exact Bool.and_not_self _
      rw [this]
      simp
    · have hm' : headerNameEq h.name n = false := by simpa using hm
      have h2 : t.any (fun h => headerNameEq h.name n) = true := by
        simpa [hm'] using hany
      simp only [setHeaderSpec, hm', Bool.false_eq_true, if_false]
      rw [List.filter_cons]
      simp only [hm', Bool.false_eq_true, if_false]
      exact ih h2

lemma getHeaderMultiValue_no_match (n : List Char) :
    ∀ hs : List Header, hs.any (fun h => headerNameEq h.name n) = false →
      getHeaderMultiValue hs n = [] := by
  intro hs
  induction hs with
  | nil => intro _; rfl
  | cons h t ih =>
    intro hany
    simp only [List.any_cons, Bool.or_eq_false_iff] at hany
    simp [getHeaderMultiValue, hany.1, ih hany.2]

lemma intercalate_comma (a : List Char) (l : List (List Char)) :
    List.intercalate [','] (a :: l) = a ++ (l.map (fun w => ',' :: w)).flatten := by
  induction l generalizing a with
  | nil => simp [List.intercalate]
  | cons b t ih =>
    show (List.intersperse [','] (a :: b :: t)).flatten = _
    rw [List.intersperse_cons₂]
    have ihb := ih b
    unfold List.intercalate at ihb
    simp only [List.flatten_cons]
    rw [ihb]
    simp

lemma getHeaderValueLoop_spec (n : List Char) :
    ∀ hs : List Header,
      getHeaderValueLoop n hs true = List.intercalate [','] (getHeaderMultiValue hs n) ∧
      getHeaderValueLoop n hs false =
        ((getHeaderMultiValue hs n).map (fun w => ',' :: w)).flatten := by
  intro hs
  induction hs with
  | nil =>
    constructor <;> simp [getHeaderValueLoop, getHeaderMultiValue, List.intercalate]
  | cons h t ih =>
    by_cases hm : headerNameEq h.name n = true
    · constructor
      · simp only [getHeaderValueLoop, getHeaderMultiValue, hm, if_pos]
        rw [intercalate_comma, ih.2]
        simp
      · simp only [getHeaderValueLoop, getHeaderMultiValue, hm, if_pos]
        rw [ih.2]
        simp
    · have hm' : headerNameEq h.name n = false := by simpa using hm
      constructor <;>
        simp [getHeaderValueLoop, getHeaderMultiValue, hm', ih.1, ih.2]

lemma parseLoopF_limit_irrelevant (msg : List Char) :
    ∀ (fuel offset : Nat) (acc : List Header),
      parseLoopF msg.length msg fuel offset acc = parseLoopF 0 msg fuel offset acc := by
  intro fuel
  induction fuel with
  | zero => intro offset acc; rfl
  | succ fuel ih =>
    intro offset acc
    simp only [parseLoopF]
    by_cases hoff : offset < msg.length
    · rw [if_pos hoff, if_pos hoff]
      cases hfind : findCRLF msg offset with
      | none => simp [hfind]
      | some t =>
        obtain ⟨hb1, hb2⟩ := findCRLF_bound msg offset t hfind
        simp only [hfind]
        have hc1 : ¬(0 < msg.length ∧ msg.length < t + CRLF.length - offset) := by
          rw [length_CRLF]
          rintro ⟨-, hlt⟩
          omega
        have hc2 : ¬(0 < 0 ∧ 0 < t + CRLF.length - offset) := by
          rintro ⟨hpos, -⟩
          omega
        rw [if_neg hc1, if_neg hc2]
        by_cases ht : t = offset
        · rw [if_pos ht, if_pos ht]
        · rw [if_neg ht, if_neg ht]
          cases hsep : separateHeaderNameAndValue msg offset t with
          | none => simp [hsep]
          | some nv =>
            obtain ⟨nm, vl⟩ := nv
            simp only [hsep]
            cases hadv : advanceAndUnfold msg (t + CRLF.length) t vl with
            | none => simp [hadv]
            | some res =>
              obtain ⟨o2, t2, v2⟩ := res
              simp only [hadv]
              exact ih o2 _
    · rw [if_neg hoff, if_neg hoff]

/-!  The claims. -/

/-- C1 (code_bug evidence): with line limit 12, the collection holding the
single header (X, "Hello aaaaaaaaaa") renders with no failure indication to
a non-empty header block whose second line, terminator included, is 13 > 12
characters long — the folding invariant claimed by the spec does not hold of
the code (the strategy reserves only 2 characters for continuation lines,
whose one-space prefix makes them one character longer). -/
theorem c1_fold_invariant_violation :
    generateRawHeaders 12 [⟨"X".toList, "Hello aaaaaaaaaa".toList⟩] =
      "X: Hello\r\n aaaaaaaaaa\r\n\r\n".toList ∧
    collectLines (generateRawHeaders 12 [⟨"X".toList, "Hello aaaaaaaaaa".toList⟩]) =
      ["X: Hello".toList, " aaaaaaaaaa".toList, "".toList] ∧
    12 < " aaaaaaaaaa".toList.length + CRLF.length ∧
    generateRawHeaders 12 [⟨"X".toList, "Hello aaaaaaaaaa".toList⟩] ≠ CRLF := by
  refine ⟨by decide, by decide, by decide, by decide⟩

/-- C4 (code_bug evidence): concrete scenario 6 does hold (limit 12 folds
`X: Hello, World!` into `X: Hello,` and ` World!`), but the reserved
character count is 2 for every output line, not 3 for subsequent ones: for
the header (X, "ab cccccccccc dd") the second scan (startOffset 6,
firstPart already false) finds no whitespace in the claimed window
[6, 6+12-3] yet the code scans to 6+12-2 = 16, breaks at the space at
index 16 and emits the 13-character line ` cccccccccc` + CRLF. -/
theorem c4_reserved_chars_bug :
    generateRawHeaders 12 [⟨"X".toList, "Hello, World!".toList⟩] =
      "X: Hello,\r\n World!\r\n\r\n".toList ∧
    generateRawHeaders 12 [⟨"X".toList, "ab cccccccccc dd".toList⟩] =
      "X: ab\r\n cccccccccc\r\n dd\r\n\r\n".toList ∧
    headerLineFoldingStrategy 12 "X: ab cccccccccc dd\r\n".toList 6 false =
      some (16, 17, false) ∧
    (∀ i ∈ List.range' 6 10, WSP.contains ("X: ab cccccccccc dd\r\n".toList.getD i ' ') = false) ∧
    WSP.contains ("X: ab cccccccccc dd\r\n".toList.getD 16 ' ') = true := by
  refine ⟨by decide, by decide, by decide, by decide, by decide⟩

/-- C5 (counterexample): parsing `"Host: example.com\r\n\r\n"` does not
report body offset 20 — the input is 21 characters long and the offset
points one past the final CRLF. -/
theorem c5_counterexample :
    parseRawMessage 0 "Host: example.com\r\n\r\n".toList ≠
      some ([⟨"Host".toList, "example.com".toList⟩], 20) := by decide

/-- C5 (amended): parsing `"Host: example.com\r\n\r\n"` succeeds with the
single header (Host, example.com) and body offset 21. -/
theorem c5_amended :
    parseRawMessage 0 "Host: example.com\r\n\r\n".toList =
      some ([⟨"Host".toList, "example.com".toList⟩], 21) := by decide

/-- C9: `ParseRawMessage` fails whenever no complete CRLF-terminated line
exists at all (the offset never moves from 0): any message without a CRLF
— in particular the empty input and `"User-Agent: curl"` — fails, while
`"\r\n"` alone succeeds with zero headers and body offset 2. -/
theorem c9_no_complete_line :
    (∀ (L : Nat) (msg : List Char), findCRLF msg 0 = none → parseRawMessage L msg = none) ∧
    parseRawMessage 0 [] = none ∧
    parseRawMessage 0 "User-Agent: curl".toList = none ∧
    parseRawMessage 0 "\r\n".toList = some ([], 2) := by
  refine ⟨?_, by decide, by decide, by decide⟩
  intro L msg hfind
  unfold parseRawMessage
  have h0 : parseLoopF L msg (msg.length + 1) 0 [] = some ([], 0) := by
    simp only [parseLoopF]
    by_cases h : 0 < msg.length
    · rw [if_pos h]
      simp [hfind]
    · rw [if_neg h]
  rw [h0]
  simp

/-- Witness for C9: a concrete CRLF-free message is rejected. -/
theorem c9_witness : parseRawMessage 7 ['a', 'b'] = none :=
  c9_no_complete_line.1 7 ['a', 'b'] (by decide)

/-- C8: with a positive limit, the parse loop returns failure the moment
the candidate line (terminator included) exceeds the limit, whatever fuel,
accumulator or remaining input; a line of exactly the limit is accepted
(`"Host: example.com\r\n"` is 19 characters and parses under limit 19 but
not under 18); and limit 0 applies no length check (parsing with limit 0
coincides with parsing under the message-length limit, which no candidate
line can exceed). -/
theorem c8_line_length_limit :
    (∀ (fuel L : Nat) (msg : List Char) (offset : Nat) (acc : List Header) (t : Nat),
      findCRLF msg offset = some t → offset < msg.length → 0 < L →
      L < t + CRLF.length - offset →
      parseLoopF L msg (fuel + 1) offset acc = none) ∧
    parseRawMessage 19 "Host: example.com\r\n\r\n".toList =
      some ([⟨"Host".toList, "example.com".toList⟩], 21) ∧
    parseRawMessage 18 "Host: example.com\r\n\r\n".toList = none ∧
    (∀ msg : List Char, parseRawMessage msg.length msg = parseRawMessage 0 msg) := by
  refine ⟨?_, by decide, by decide, ?_⟩
  · intro fuel L msg offset acc t hfind hoff hL hlt
    simp only [parseLoopF]
    rw [if_pos hoff]
    simp only [hfind]
    rw [if_pos ⟨hL, hlt⟩]
  · intro msg
    unfold parseRawMessage
    rw [parseLoopF_limit_irrelevant msg (msg.length + 1) 0 []]

/-- Witness for C8: the first line of the Host message is 19 characters
with terminator; under limit 5 the loop fails at once. -/
theorem c8_witness :
    parseLoopF 5 "Host: example.com\r\n\r\n".toList 22 0 [] = none :=
  c8_line_length_limit.1 21 5 "Host: example.com\r\n\r\n".toList 0 [] 17
    (by decide) (by decide) (by decide) (by decide)

/-- C6: `SetHeader(n, v)` equals the claim's description — when some entry
matches `n` case-insensitively, the first match keeps its position and
stored name and gets value `v`, every later match is deleted
(`setHeaderSpec`); otherwise the new header is appended — and in either
case exactly one entry matching `n` remains. -/
theorem c6_set_header_collapse (hs : List Header) (n v : List Char) :
    setHeader hs n v =
      (if hs.any (fun h => headerNameEq h.name n) then setHeaderSpec n v hs
        else hs ++ [⟨n, v⟩]) ∧
    ((setHeader hs n v).filter (fun h => headerNameEq h.name n)).length = 1 := by
  have hmain : setHeader hs n v =
      (if hs.any (fun h => headerNameEq h.name n) then setHeaderSpec n v hs
        else hs ++ [⟨n, v⟩]) := by
    unfold setHeader
    by_cases hany : hs.any (fun h => headerNameEq h.name n) = true
    · rw [setHeaderLoop_match n v hs hany]
      simp [hany]
    · have hany' : hs.any (fun h => headerNameEq h.name n) = false := by simpa using hany
      rw [setHeaderLoop_no_match n v hs hany']
      simp [hany', addHeader]
  refine ⟨hmain, ?_⟩
  rw [hmain]
  by_cases hany : hs.any (fun h => headerNameEq h.name n) = true
  · rw [if_pos hany]
    exact setHeaderSpec_count n v hs hany
  · have hany' : hs.any (fun h => headerNameEq h.name n) = false := by simpa using hany
    rw [if_neg (by simp [hany'])]
    rw [List.filter_append]
    have h1 : hs.filter (fun h => headerNameEq h.name n) = [] := by
      rw [List.filter_eq_nil_iff]
      intro a ha
      rw [List.any_eq_false] at hany'
      simp [hany' a ha]
    rw [h1]
    simp [List.filter_cons, headerNameEq_refl]

/-- C7: `GetHeaderValue` always equals the values of `GetHeaderMultiValue`
joined by single commas with no added spaces; an absent name yields the
empty string and the empty sequence (both functions are total — no error
path exists). -/
theorem c7_multi_value_join (hs : List Header) (n : List Char) :
    getHeaderValue hs n = List.intercalate [','] (getHeaderMultiValue hs n) ∧
    (hs.any (fun h => headerNameEq h.name n) = false →
      getHeaderValue hs n = [] ∧ getHeaderMultiValue hs n = []) := by
  refine ⟨(getHeaderValueLoop_spec n hs).1, ?_⟩
  intro hany
  have hm := getHeaderMultiValue_no_match n hs hany
  constructor
  · show getHeaderValueLoop n hs true = []
    rw [(getHeaderValueLoop_spec n hs).1, hm]
    simp [List.intercalate]
  · exact hm

/-- Witness for C7: looking up a name absent from a one-header collection
yields the empty string and the empty sequence. -/
theorem c7_witness :
    getHeaderValue [⟨"Host".toList, "a".toList⟩] "X".toList = [] ∧
    getHeaderMultiValue [⟨"Host".toList, "a".toList⟩] "X".toList = [] :=
  (c7_multi_value_join [⟨"Host".toList, "a".toList⟩] "X".toList).2 (by decide)

/-- C10: for every limit of at least 2, `GenerateRawHeaders` never signals
an error: it returns the concatenation of each header's `SplitLine` parts
(a header whose folding fails contributes nothing and is silently
omitted) followed by the final CRLF; the result always ends in that CRLF,
and it collapses to exactly `"\r\n"` precisely when every header of the
collection fails to fold (vacuously, when the collection is empty).

The limit 1 is deliberately outside this theorem: there the source's scan
bound `startOffset + lineLengthLimit - reservedCharacters` underflows in
`size_t` on the first part of any header line (every line is at least 4
characters, so the fits-check never saves it), and the C++ scan indexes
the string far out of bounds — undefined behaviour, under which the
render returns nothing at all; the truncated-`Nat` embedding is faithful
to the source only for limits of at least 2. -/
theorem c10_render_never_fails (L : Nat) (hs : List Header) (hL : 2 ≤ L) :
    generateRawHeaders L hs =
      (hs.map (fun h => (splitLine CRLF [' '] L (headerLine h)).flatten)).flatten ++ CRLF ∧
    (∃ s, generateRawHeaders L hs = s ++ CRLF) ∧
    (generateRawHeaders L hs = CRLF ↔
      ∀ h ∈ hs, splitLine CRLF [' '] L (headerLine h) = []) := by
  have hgen : generateRawHeaders L hs =
      (hs.map (fun h => (splitLine CRLF [' '] L (headerLine h)).flatten)).flatten ++ CRLF := by
    unfold generateRawHeaders
    congr 2
    apply List.map_congr_left
    intro h hh
    rw [if_pos (by omega : 0 < L)]
  refine ⟨hgen, ⟨_, hgen⟩, ?_⟩
  rw [hgen]
  constructor
  · intro heq
    have hflat : (hs.map (fun h => (splitLine CRLF [' '] L (headerLine h)).flatten)).flatten
        = [] := by
      have h2 : (hs.map (fun h => (splitLine CRLF [' '] L (headerLine h)).flatten)).flatten
          ++ CRLF = [] ++ CRLF := by simpa using heq
      exact List.append_cancel_right h2
    rw [List.flatten_eq_nil_iff] at hflat
    intro h hh
    have hh2 : (splitLine CRLF [' '] L (headerLine h)).flatten = [] :=
      hflat _ (List.mem_map_of_mem _ hh)
    unfold splitLine at hh2 ⊢
    cases haux : splitLineAuxF CRLF [' '] L (headerLine h) ((headerLine h).length + 1)
        0 true true with
    | none => simp
    | some parts =>
      rw [haux] at hh2
      simp only [Option.getD_some] at hh2 ⊢
      cases parts with
      | nil => rfl
      | cons p ps =>
        have hp := splitLineAuxF_ne_nil [' '] L (headerLine h) _ 0 true true (p :: ps)
          haux p (by simp)
        rw [List.flatten_cons] at hh2
        rcases List.append_eq_nil.mp hh2 with ⟨hpnil, -⟩
        exact absurd hpnil hp
  · intro hall
    have : (hs.map (fun h => (splitLine CRLF [' '] L (headerLine h)).flatten)).flatten
        = [] := by
      rw [List.flatten_eq_nil_iff]
      intro l hl
      obtain ⟨h, hh, rfl⟩ := List.mem_map.mp hl
      rw [hall h hh]
      rfl
    rw [this]
    rfl

/-- Witness for C10: limit 12 with the single header (X, "Hello!!!"): the
line `X: Hello!!!` (13 characters with terminator) has only the one
whitespace after the colon, which the first-part scan skips, so folding
fails, the header is omitted, and the rendered block is exactly CRLF. -/
theorem c10_witness :
    generateRawHeaders 12 [⟨"X".toList, "Hello!!!".toList⟩] = CRLF ∧
    splitLine CRLF [' '] 12 (headerLine ⟨"X".toList, "Hello!!!".toList⟩) = [] := by
  refine ⟨?_, by decide⟩
  exact ((c10_render_never_fails 12 [⟨"X".toList, "Hello!!!".toList⟩] (by decide)).2.2).mpr
    (by decide)

/-- C3 (counterexample): in `"Subject: This\r\n x\r\n\r\n"` the line
following the Subject line is `" x"` — non-empty and beginning with a
space — yet `AdvanceAndUnfold` does not treat it as a continuation (its
length 2 is not strictly greater than `CRLF.length`): the lookahead
returns with offset, terminator and value unchanged, and the whole parse
then fails (the leftover `" x"` line has no colon) instead of producing
the value `"This x"`. -/
theorem c3_counterexample :
    (" x".toList ≠ [] ∧ WSP.contains ' ' = true) ∧
    advanceAndUnfold "Subject: This\r\n x\r\n\r\n".toList 15 13 " This".toList =
      some (15, 13, " This".toList) ∧
    parseRawMessage 0 "Subject: This\r\n x\r\n\r\n".toList = none := by
  refine ⟨by decide, by decide, by decide⟩

/-- C3 (amended): the unfolding lookahead, characterised on an arbitrary
message split as `A ++ CRLF ++ B ++ CRLF ++ C` (current line terminator at
position `|A|`, next line `B` free of carriage returns).  The next line is
a continuation exactly when its length is strictly greater than 2 — not
merely non-empty — and it begins with space or tab; then a single space
plus the line's content with leading whitespace stripped is appended to
the value and the lookahead advances past the line; otherwise lookahead
stops with everything unchanged.  When no further CRLF exists
(`A ++ CRLF ++ B` with `B` terminator-free), the lookahead fails the
parse. -/
theorem c3_unfold_step :
    (∀ (A B C : List Char) (offset : Nat) (v : List Char), (∀ c ∈ B, c ≠ '\r') →
      advanceAndUnfold (A ++ CRLF ++ B ++ CRLF ++ C) offset A.length v =
        if 2 < B.length ∧ WSP.contains (B.headD (Char.ofNat 0)) = true then
          advanceAndUnfold (A ++ CRLF ++ B ++ CRLF ++ C) (A.length + 2 + B.length + 2)
            (A.length + 2 + B.length) (v ++ ' ' :: B.dropWhile (fun c => WSP.contains c))
        else some (offset, A.length, v)) ∧
    (∀ (A B : List Char) (offset : Nat) (v : List Char), (∀ c ∈ B, c ≠ '\r') →
      advanceAndUnfold (A ++ CRLF ++ B) offset A.length v = none) :=
  ⟨advanceAndUnfold_step, advanceAndUnfold_unterminated⟩

/-- Witness for C3: one concrete unfolding step on
`"Subject: This\r\n   is a test\r\n\r\n"`. -/
theorem c3_witness :
    advanceAndUnfold ("Subject: This".toList ++ CRLF ++ "   is a test".toList ++ CRLF ++ [])
      15 "Subject: This".toList.length " This".toList =
      (if 2 < "   is a test".toList.length ∧
          WSP.contains ("   is a test".toList.headD (Char.ofNat 0)) = true then
        advanceAndUnfold ("Subject: This".toList ++ CRLF ++ "   is a test".toList ++ CRLF ++ [])
          ("Subject: This".toList.length + 2 + "   is a test".toList.length + 2)
          ("Subject: This".toList.length + 2 + "   is a test".toList.length)
          (" This".toList ++ ' ' :: "   is a test".toList.dropWhile (fun c => WSP.contains c))
      else some (15, "Subject: This".toList.length, " This".toList)) :=
  c3_unfold_step.1 "Subject: This".toList "   is a test".toList [] 15 " This".toList
    (by decide)

/-- C2 (counterexample): `"Host:example.com\r\n\r\n"` is well formed (it
parses, and no line needs folding), but rendering the parsed collection
yields `"Host: example.com\r\n\r\n"` — the generator always inserts a
space after the colon, so the round trip is not byte-for-byte. -/
theorem c2_roundtrip_counterexample :
    parseRawMessage 0 "Host:example.com\r\n\r\n".toList =
      some ([⟨"Host".toList, "example.com".toList⟩], 20) ∧
    generateRawHeaders 0 [⟨"Host".toList, "example.com".toList⟩] ≠
      "Host:example.com\r\n\r\n".toList := by
  refine ⟨by decide, by decide⟩

/-- C2 (amended): the round trip is exact on canonical inputs: for any
collection of canonical headers (printable colon-free names, values free
of CR/LF with no margin whitespace, each rendered line within a positive
limit) and a limit that admits the blank line (0, or at least 2), parsing
the canonical wire form `rawOf hs` yields exactly those headers with body
offset at the end of the input, rendering the collection reproduces
`rawOf hs`, and hence render-after-parse is the identity on such inputs. -/
theorem c2_canonical_roundtrip (L : Nat) (hs : List Header)
    (hL : L = 0 ∨ 2 ≤ L) (hcan : ∀ h ∈ hs, CanonicalHeader L h) :
    parseRawMessage L (rawOf hs) = some (hs, (rawOf hs).length) ∧
    generateRawHeaders L hs = rawOf hs ∧
    (parseRawMessage L (rawOf hs)).map (fun r => generateRawHeaders L r.1) =
      some (rawOf hs) := by
  have hp := parseRawMessage_rawOf L hL hs hcan
  have hg := generateRawHeaders_rawOf L hs hcan
  refine ⟨hp, hg, ?_⟩
  rw [hp]
  simp [hg]

/-- Witness for C2: the canonical one-header collection (Host, example.com)
round-trips with limit 0 and with limit 21. -/
theorem c2_witness :
    parseRawMessage 21 (rawOf [⟨"Host".toList, "example.com".toList⟩]) =
      some ([⟨"Host".toList, "example.com".toList⟩],
        (rawOf [⟨"Host".toList, "example.com".toList⟩]).length) ∧
    generateRawHeaders 21 [⟨"Host".toList, "example.com".toList⟩] =
      rawOf [⟨"Host".toList, "example.com".toList⟩] := by
  have h := c2_canonical_roundtrip 21 [⟨"Host".toList, "example.com".toList⟩]
    (Or.inr (by omega))
    (by
      intro h hh
      rw [List.mem_singleton] at hh
      subst hh
      decide)
  exact ⟨h.1, h.2.1⟩
